import Mathlib

/-!
A shallow embedding of the word-level tokenizing translator of the
gobstones-lang-intl repository: the StringReader scanner
(src/helpers/StringReader.ts), the BidirectionalMap helper
(src/helpers/BidirectionalMap.ts), and the GobstonesTranslator with its
built-in locale tables (src/translator/index.ts, src/lang-translations).
JavaScript strings are modelled as lists of characters, JavaScript Map
objects and records as insertion-ordered association lists, and thrown
errors as the error side of Except.
-/

deriving instance DecidableEq for Except

namespace GobsLangIntl

/-- A JavaScript string, modelled as its list of characters. -/
abbrev Str := List Char

/-- Shorthand turning a Lean string literal into the model string type. -/
def str (s : String) : Str := s.data

/-- A JavaScript Map object (also used for plain records): an
insertion-ordered association list. Built through jsSet below, its keys
stay pairwise distinct, as in a JavaScript Map. -/
abbrev JsMap (α β : Type) := List (α × β)

/-- Map.get: the value at a key, none when the key is absent. A JavaScript
Map holds each key once, so the first matching entry is the entry. -/
def jsGet {α β : Type} [DecidableEq α] (m : JsMap α β) (k : α) : Option β :=
  match m with
  | [] => none
  | p :: rest => if p.1 = k then some p.2 else jsGet rest k

/-- Map.has, as the Boolean presence check of jsGet. -/
def jsHas {α β : Type} [DecidableEq α] (m : JsMap α β) (k : α) : Bool :=
  (jsGet m k).isSome

/-- Map.set: overwrite the value in place when the key is present (keeping
the insertion position of the key), append the pair otherwise. -/
def jsSet {α β : Type} [DecidableEq α] (m : JsMap α β) (k : α) (v : β) : JsMap α β :=
  if m.any (fun p => p.1 = k) then
    m.map (fun p => if p.1 = k then (k, v) else p)
  else m ++ [(k, v)]

/-- new Map(pairs): set every pair of the sequence, in order, into an
initially empty map, so a later pair with the same key overwrites. -/
def jsOfList {α β : Type} [DecidableEq α] (l : List (α × β)) : JsMap α β :=
  l.foldl (fun m p => jsSet m p.1 p.2) []

/-- The errors the embedded code can throw: the GobstonesTranslationError
subclasses of src/translator/Errors.ts, plus the native TypeError the
JavaScript runtime raises on its own (for example when iterating
undefined). -/
inductive ThrownError
  | nonExistentLocaleGiven (locale : Str) (attrib : Str)
  | localeNameCollision (name : Str)
  | noFromLocaleGiven
  | noToLocaleGiven
  | noNamesGiven
  | typeError
deriving DecidableEq

/-- The BidirectionalMap of src/helpers/BidirectionalMap.ts: a forward map
and a reverse map held side by side. -/
structure BidirectionalMap (K V : Type) where
  map : JsMap K V
  reverseMap : JsMap V K
deriving DecidableEq

namespace BidirectionalMap

/-- The constructor body once the pairs argument is actually supplied:
this.map = new Map(pairs), and reverseMap is filled by iterating the pairs
argument in order, setting value to key. -/
def ofPairs {K V : Type} [DecidableEq K] [DecidableEq V]
    (pairs : List (K × V)) : BidirectionalMap K V :=
  { map := jsOfList pairs
    reverseMap := pairs.foldl (fun m p => jsSet m p.2 p.1) [] }

/-- new BidirectionalMap(pairs) with the declared-optional argument
modelled: new Map(undefined) succeeds, but the for..of loop over the
undefined argument then throws a TypeError, so no instance is produced. -/
def construct {K V : Type} [DecidableEq K] [DecidableEq V]
    (pairs : Option (List (K × V))) : Except ThrownError (BidirectionalMap K V) :=
  match pairs with
  | none => .error .typeError
  | some l => .ok (ofPairs l)

/-- hasKey: presence in the forward map. -/
def hasKey {K V : Type} [DecidableEq K] (b : BidirectionalMap K V) (key : K) : Bool :=
  jsHas b.map key

/-- hasValue: presence in the reverse map. -/
def hasValue {K V : Type} [DecidableEq V] (b : BidirectionalMap K V) (key : V) : Bool :=
  jsHas b.reverseMap key

/-- getByKey: forward lookup. -/
def getByKey {K V : Type} [DecidableEq K] (b : BidirectionalMap K V) (key : K) : Option V :=
  jsGet b.map key

/-- getByValue: reverse lookup. -/
def getByValue {K V : Type} [DecidableEq V] (b : BidirectionalMap K V) (value : V) : Option K :=
  jsGet b.reverseMap value

/-- setByKey: update both directions. -/
def setByKey {K V : Type} [DecidableEq K] [DecidableEq V]
    (b : BidirectionalMap K V) (key : K) (value : V) : BidirectionalMap K V :=
  { map := jsSet b.map key value, reverseMap := jsSet b.reverseMap value key }

/-- getMapByKeys: the forward map as a plain map. -/
def getMapByKeys {K V : Type} (b : BidirectionalMap K V) : JsMap K V := b.map

/-- getMapByValues: the reverse map as a plain map. -/
def getMapByValues {K V : Type} (b : BidirectionalMap K V) : JsMap V K := b.reverseMap

end BidirectionalMap

/-- The character class of the default wordEnders regular expression of
StringReader: the separator characters that end a word. -/
def separators : List Char :=
  [' ', '\n', '\t', '(', ')', '[', ']', '{', '}', ',', ';', '.', ':', '=', '>', '<', '-']

/-- isAlpha on one character: the regular expression matches exactly the
characters that are not separators. -/
def isAlphaChar (c : Char) : Bool := decide (c ∈ separators) = false

/-- The StringReader of src/helpers/StringReader.ts: the string and the
current index. -/
structure StringReader where
  str : Str
  index : Nat
deriving DecidableEq

namespace StringReader

/-- str.charAt(i): the character at index i; JavaScript returns the empty
string out of range, modelled as none. -/
def charAt (s : Str) (i : Nat) : Option Char := s.get? i

/-- eof: the index reached the length of the string. -/
def eof (sr : StringReader) : Bool := sr.index ≥ sr.str.length

/-- isAlpha applied to a charAt result: the regular expression does not
match the empty string JavaScript yields out of range. -/
def isAlphaAt (c : Option Char) : Bool :=
  match c with
  | none => false
  | some c => isAlphaChar c

/-- peekChar: the next character without consuming it. -/
def peekChar (sr : StringReader) : Option Char :=
  if sr.eof then none else charAt sr.str sr.index

/-- nextChar: undefined at eof, otherwise the character at the index and
the reader advanced by one. -/
def nextChar (sr : StringReader) : Option Char × StringReader :=
  if sr.eof then (none, sr)
  else (charAt sr.str sr.index, { sr with index := sr.index + 1 })

/-- The while loop of offsetToNonAlpha, counted over the remaining
characters: how many consecutive characters from the front satisfy
isAlpha (charAt past the end is not alpha, which stops the loop). -/
def countAlpha : Str → Nat
  | [] => 0
  | c :: cs => if isAlphaChar c then countAlpha cs + 1 else 0

/-- offsetToNonAlpha: the number of characters to consume to reach the
next non-alpha character, counting from the current index. -/
def offsetToNonAlpha (sr : StringReader) : Nat :=
  countAlpha (sr.str.drop sr.index)

/-- nextWord: undefined at eof; otherwise the offsetToNonAlpha characters
from the index (possibly the empty word when the current character is a
separator), with the index advanced by that offset. -/
def nextWord (sr : StringReader) : Option Str × StringReader :=
  if sr.eof then (none, sr)
  else
    let offset := sr.offsetToNonAlpha
    (some ((sr.str.drop sr.index).take offset), { sr with index := sr.index + offset })

/-- peekWord: the word nextWord would return, with the index restored. -/
def peekWord (sr : StringReader) : Option Str :=
  (sr.nextWord).1

/-- isWord: false at eof, otherwise whether the character at the index is
alpha. -/
def isWord (sr : StringReader) : Bool :=
  if sr.eof then false else isAlphaAt (charAt sr.str sr.index)

end StringReader

open StringReader in
/-- The while loop of translateWithMap in src/translator/index.ts, written
on the reader state (the string s and the index i): at a word position the
reader consumes the next word and the map translates it (a missing word
passes through unchanged, and the falsy empty word appends nothing); at
any other position the character is copied through by nextChar. The last
argument counts the iterations still allowed: every iteration advances
the index by at least one character, so the length of the string (the
bound translateWithMap supplies) is enough, and the out-of-iterations
branch is never reached. -/
def translateWithMapAux (m : JsMap Str Str) (s : Str) : Nat → Nat → Str
  | _, 0 => []
  | i, fuel + 1 =>
    if h : i < s.length then
      if isAlphaChar (s.get ⟨i, h⟩) then
        let offset := countAlpha (s.drop i)
        let word := (s.drop i).take offset
        (if word.isEmpty then [] else (jsGet m word).getD word) ++
          translateWithMapAux m s (i + offset) fuel
      else
        s.get ⟨i, h⟩ :: translateWithMapAux m s (i + 1) fuel
    else []

/-- translateWithMap: run the loop with a fresh reader (index 0). -/
def translateWithMap (m : JsMap Str Str) (code : Str) : Str :=
  translateWithMapAux m code 0 code.length

/-- A locale definition object (src/translator LocaleDefinition): the
optional reserved key named extends, and the token-name to spelling
entries in insertion order. The reserved key is held apart (the field is
called ext because extends is reserved in Lean); no token name collides
with it. -/
structure LocaleDefinition where
  ext : Option Str
  entries : List (Str × Str)
deriving DecidableEq

/-- A language map: a bidirectional map between strings. -/
abbrev LanguageMap := BidirectionalMap Str Str

/-- The registeredLocales record: locale name to language map, in
registration order. -/
abbrev Registry := JsMap Str LanguageMap

/-- Property access into a definition object by bare token name, with
JavaScript truthiness: an absent name and the empty-string spelling are
both falsy. Returns the spelling only when it is truthy. -/
def truthyLookup (d : LocaleDefinition) (bare : Str) : Option Str :=
  match jsGet d.entries bare with
  | none => none
  | some nv => if nv.isEmpty then none else some nv

/-- getExtendedDefinitionEntries: walk the fully resolved entries of the
extended locale; strip the token pre/suf decoration from each key to
recover the bare token name, and when the extending definition holds a
truthy spelling for that bare name use it, keeping the inherited spelling
otherwise. -/
def getExtendedDefinitionEntries (tokenPre tokenSuf : Str)
    (base : LanguageMap) (langDefinition : LocaleDefinition) : List (Str × Str) :=
  (base.getMapByKeys).map (fun p =>
    let key := p.1
    let k1 := if tokenPre.isPrefixOf key then key.drop tokenPre.length else key
    let bare :=
      if tokenSuf.isSuffixOf k1 then k1.take (k1.length - tokenSuf.length) else k1
    match truthyLookup langDefinition bare with
    | some nv => (key, nv)
    | none => (key, p.2))

/-- registerLocale: first the extends target must resolve when declared,
then the name must be fresh; a full definition is decorated pairwise with
the token pre/suf strings, an extending one is resolved against the
already registered base. -/
def registerLocale (tokenPre tokenSuf : Str) (reg : Registry) (name : Str)
    (langDefinition : LocaleDefinition) : Except ThrownError Registry :=
  match langDefinition.ext with
  | some e =>
      match jsGet reg e with
      | none => .error (.nonExistentLocaleGiven e (str "extends"))
      | some base =>
          if (jsGet reg name).isSome then .error (.localeNameCollision name)
          else .ok (jsSet reg name (BidirectionalMap.ofPairs
            (getExtendedDefinitionEntries tokenPre tokenSuf base langDefinition)))
  | none =>
      if (jsGet reg name).isSome then .error (.localeNameCollision name)
      else .ok (jsSet reg name (BidirectionalMap.ofPairs
        (langDefinition.entries.map (fun p => (tokenPre ++ p.1 ++ tokenSuf, p.2)))))

/-- registerAllLocales: register every definition of the record in
iteration order; the first thrown error aborts the whole loop. -/
def registerAllLocales (tokenPre tokenSuf : Str) (reg : Registry)
    (languages : List (Str × LocaleDefinition)) : Except ThrownError Registry :=
  languages.foldlM (fun r p => registerLocale tokenPre tokenSuf r p.1 p.2) reg

/-- The full English definition (the repository locale table named en in
src/lang-translations, data as in the English translation file). -/
def enDef : LocaleDefinition :=
  { ext := none
    entries :=
      [ (str "GBS_DEFINITION_PROGRAM", str "program"),
        (str "GBS_DEFINITION_INTERACTIVE", str "interactive"),
        (str "GBS_DEFINITION_PROCEDURE", str "procedure"),
        (str "GBS_DEFINITION_FUNCTION", str "function"),
        (str "GBS_DEFINITION_RETURN", str "return"),
        (str "GBS_DEFINITION_TYPE", str "type"),
        (str "GBS_DEFINITION_IS", str "is"),
        (str "GBS_DEFINITION_RECORD", str "record"),
        (str "GBS_DEFINITION_VARIANT", str "variant"),
        (str "GBS_DEFINITION_CASE", str "case"),
        (str "GBS_DEFINITION_FIELD", str "field"),
        (str "GBS_CONTROL_IF", str "if"),
        (str "GBS_CONTROL_THEN", str "then"),
        (str "GBS_CONTROL_ELSE", str "else"),
        (str "GBS_CONTROL_ELSEIF", str "elseif"),
        (str "GBS_CONTROL_CHOOSE", str "choose"),
        (str "GBS_CONTROL_WHEN", str "when"),
        (str "GBS_CONTROL_OTHERWISE", str "otherwise"),
        (str "GBS_CONTROL_SWITCH", str "switch"),
        (str "GBS_CONTROL_TO", str "to"),
        (str "GBS_CONTROL_MATCHING", str "matching"),
        (str "GBS_CONTROL_SELECT", str "select"),
        (str "GBS_CONTROL_ON", str "on"),
        (str "GBS_CONTROL_DEFAULT", str "default"),
        (str "GBS_CONTROL_REPEAT", str "repeat"),
        (str "GBS_CONTROL_WHILE", str "while"),
        (str "GBS_CONTROL_FOREACH", str "foreach"),
        (str "GBS_CONTROL_IN", str "in"),
        (str "GBS_ASSIGN_LET", str "let"),
        (str "GBS_OPERATOR_NOT", str "not"),
        (str "GBS_OPERATOR_DIV", str "div"),
        (str "GBS_OPERATOR_MOD", str "mod"),
        (str "GBS_TYPE_COLOR", str "Color"),
        (str "GBS_TYPE_DIR", str "Direction"),
        (str "GBS_TYPE_NUMBER", str "Number"),
        (str "GBS_TYPE_BOOL", str "Boolean"),
        (str "GBS_TYPE_STRING", str "String"),
        (str "GBS_TYPE_TUPLE", str "Tuple"),
        (str "GBS_TYPE_LIST", str "List"),
        (str "GBS_TYPE_VARIANT", str "Variant"),
        (str "GBS_TYPE_RECORD", str "Record"),
        (str "GBS_TYPE_EVENT", str "Event"),
        (str "GBS_COLOR_BLUE", str "Blue"),
        (str "GBS_COLOR_BLACK", str "Black"),
        (str "GBS_COLOR_RED", str "Red"),
        (str "GBS_COLOR_GREEN", str "Green"),
        (str "GBS_DIR_NORTH", str "North"),
        (str "GBS_DIR_EAST", str "East"),
        (str "GBS_DIR_SOUTH", str "South"),
        (str "GBS_DIR_WEST", str "West"),
        (str "GBS_BOOL_TRUE", str "True"),
        (str "GBS_BOOL_FALSE", str "False"),
        (str "GBS_EVENT_INIT", str "INIT"),
        (str "GBS_EVENT_TIMEOUT", str "TIMEOUT"),
        (str "GBS_COMMAND_GRAB", str "Grab"),
        (str "GBS_COMMAND_DROP", str "Drop"),
        (str "GBS_COMMAND_MOVE", str "Move"),
        (str "GBS_COMMAND_MOVETOEDGE", str "GoToEdge"),
        (str "GBS_COMMAND_CLEANBOARD", str "ClearBoard"),
        (str "GBS_EXPRESSION_NUMSTONES", str "numStones"),
        (str "GBS_EXPRESSION_HASSTONES", str "hasStones"),
        (str "GBS_EXPRESSION_CANMOVE", str "canMove"),
        (str "GBS_EXPRESSION_NEXT", str "next"),
        (str "GBS_EXPRESSION_PREV", str "prev"),
        (str "GBS_EXPRESSION_OPPOSITE", str "opposite"),
        (str "GBS_EXPRESSION_ISEMPTY", str "isEmpty"),
        (str "GBS_EXPRESSION_HEAD", str "head"),
        (str "GBS_EXPRESSION_TAIL", str "tail"),
        (str "GBS_EXPRESSION_LAST", str "last"),
        (str "GBS_EXPRESSION_INIT", str "init"),
        (str "GBS_EXPRESSION_MINCOLOR", str "minColor"),
        (str "GBS_EXPRESSION_MAXCOLOR", str "maxColor"),
        (str "GBS_EXPRESSION_MINDIR", str "minDir"),
        (str "GBS_EXPRESSION_MAXDIR", str "maxDir"),
        (str "GBS_EXPRESSION_MINBOOL", str "minBool"),
        (str "GBS_EXPRESSION_MAXBOOL", str "maxBool"),
        (str "GBS_ERROR_COMMAND_BOOM", str "BOOM"),
        (str "GBS_ERROR_EXPRESSION_BOOM", str "boom"),
        (str "GBS_ERROR_TYPECHECK", str "Typecheck") ] }

/-- The Spanish definition (the repository locale table named es): extends
en, overriding types, built-in values, commands and expressions. -/
def esDef : LocaleDefinition :=
  { ext := some (str "en")
    entries :=
      [ (str "GBS_TYPE_COLOR", str "Color"),
        (str "GBS_TYPE_DIR", str "Dirección"),
        (str "GBS_TYPE_NUMBER", str "Número"),
        (str "GBS_TYPE_BOOL", str "Booleano"),
        (str "GBS_TYPE_STRING", str "Texto"),
        (str "GBS_TYPE_TUPLE", str "Tupla"),
        (str "GBS_TYPE_LIST", str "Lista"),
        (str "GBS_TYPE_VARIANT", str "Variante"),
        (str "GBS_TYPE_RECORD", str "Registro"),
        (str "GBS_TYPE_EVENT", str "Evento"),
        (str "GBS_COLOR_BLUE", str "Azul"),
        (str "GBS_COLOR_BLACK", str "Negro"),
        (str "GBS_COLOR_RED", str "Rojo"),
        (str "GBS_COLOR_GREEN", str "Verde"),
        (str "GBS_DIR_NORTH", str "Norte"),
        (str "GBS_DIR_EAST", str "Este"),
        (str "GBS_DIR_SOUTH", str "Sur"),
        (str "GBS_DIR_WEST", str "Oeste"),
        (str "GBS_BOOL_TRUE", str "True"),
        (str "GBS_BOOL_FALSE", str "False"),
        (str "GBS_EVENT_INIT", str "INIT"),
        (str "GBS_EVENT_TIMEOUT", str "TIMEOUT"),
        (str "GBS_COMMAND_GRAB", str "Sacar"),
        (str "GBS_COMMAND_DROP", str "Poner"),
        (str "GBS_COMMAND_MOVE", str "Mover"),
        (str "GBS_COMMAND_MOVETOEDGE", str "IrAlBorde"),
        (str "GBS_COMMAND_CLEANBOARD", str "VaciarTablero"),
        (str "GBS_EXPRESSION_NUMSTONES", str "nroBolitas"),
        (str "GBS_EXPRESSION_HASSTONES", str "hayBolitas"),
        (str "GBS_EXPRESSION_CANMOVE", str "puedeMover"),
        (str "GBS_EXPRESSION_NEXT", str "siguiente"),
        (str "GBS_EXPRESSION_PREV", str "previo"),
        (str "GBS_EXPRESSION_OPPOSITE", str "opuesto"),
        (str "GBS_EXPRESSION_ISEMPTY", str "esVacía"),
        (str "GBS_EXPRESSION_HEAD", str "primero"),
        (str "GBS_EXPRESSION_TAIL", str "sinElPrimero"),
        (str "GBS_EXPRESSION_LAST", str "último"),
        (str "GBS_EXPRESSION_INIT", str "sinElÚltimo") ] }

/-- The British English definition (src/lang-translations/en-UK.ts):
extends en, respelling Colour. -/
def enUKDef : LocaleDefinition :=
  { ext := some (str "en")
    entries :=
      [ (str "GBS_TYPE_COLOR", str "Colour"),
        (str "GBS_EXPRESSION_MINCOLOR", str "minColor"),
        (str "GBS_EXPRESSION_MAXCOLOR", str "maxColor") ] }

/-- The built-in locale record of src/lang-translations/index.ts, in key
insertion order. -/
def availableLocales : List (Str × LocaleDefinition) :=
  [ (str "en", enDef),
    (str "en-AU", enUKDef),
    (str "en-BZ", enDef),
    (str "en-CA", enUKDef),
    (str "en-CB", enUKDef),
    (str "en-GB", enUKDef),
    (str "en-IE", enUKDef),
    (str "en-IN", enUKDef),
    (str "en-JM", enUKDef),
    (str "en-MT", enUKDef),
    (str "en-MY", enUKDef),
    (str "en-NZ", enUKDef),
    (str "en-PH", enUKDef),
    (str "en-SG", enUKDef),
    (str "en-TT", enUKDef),
    (str "en-US", enDef),
    (str "en-ZA", enUKDef),
    (str "en-ZW", enUKDef),
    (str "es", esDef),
    (str "es-AR", esDef),
    (str "es-BO", esDef),
    (str "es-CL", esDef),
    (str "es-CO", esDef),
    (str "es-CR", esDef),
    (str "es-DO", esDef),
    (str "es-EC", esDef),
    (str "es-ES", esDef),
    (str "es-GT", esDef),
    (str "es-HN", esDef),
    (str "es-MX", esDef),
    (str "es-NI", esDef),
    (str "es-PA", esDef),
    (str "es-PE", esDef),
    (str "es-PR", esDef),
    (str "es-PY", esDef),
    (str "es-SV", esDef),
    (str "es-US", esDef),
    (str "es-UY", esDef),
    (str "es-VE", esDef) ]

/-- The options record accepted by the GobstonesTranslator constructor.
The source calls the first two fields from and to; those words are
reserved in Lean. The names record is given as its Object.entries list. -/
structure GobstonesTranslatorOptions where
  fromLoc : Option Str := none
  toLoc : Option Str := none
  names : Option (List (Str × Str)) := none
  locales : Option (List (Str × LocaleDefinition)) := none
  tokenPre : Option Str := none
  tokenSuf : Option Str := none

/-- The GobstonesTranslator instance state: the configuration fixed by the
constructor. The source calls the first two fields from and to. -/
structure GobstonesTranslator where
  fromLoc : Option Str
  toLoc : Option Str
  names : Option LanguageMap
  registeredLocales : Registry
  tokenPre : Str
  tokenSuf : Str
deriving DecidableEq

/-- The GobstonesTranslator constructor: default the token pre/suf strings
to a dollar sign, register the built-in locales and then the user
supplied ones, build the names map, and validate that the configured
source and destination locales resolve in the registry. Any thrown error
aborts the whole construction. -/
def mkGobstonesTranslator (options : GobstonesTranslatorOptions) :
    Except ThrownError GobstonesTranslator := do
  let tokenPre := options.tokenPre.getD (str "$")
  let tokenSuf := options.tokenSuf.getD (str "$")
  let reg ← registerAllLocales tokenPre tokenSuf [] availableLocales
  let reg ← registerAllLocales tokenPre tokenSuf reg (options.locales.getD [])
  let tr : GobstonesTranslator :=
    { fromLoc := options.fromLoc
      toLoc := options.toLoc
      names := options.names.map BidirectionalMap.ofPairs
      registeredLocales := reg
      tokenPre := tokenPre
      tokenSuf := tokenSuf }
  match options.fromLoc with
  | some f =>
      if (jsGet reg f).isNone then
        throw (.nonExistentLocaleGiven f (str "fromLang"))
  | none => pure ()
  match options.toLoc with
  | some t =>
      if (jsGet reg t).isNone then
        throw (.nonExistentLocaleGiven t (str "toLang"))
  | none => pure ()
  return tr

namespace GobstonesTranslator

/-- fullMap: throw NoNamesGiven when useNames is requested on a translator
built without names; otherwise the base map alone, or a fresh map built
from the base entries followed by the names entries (so a later names
entry overwrites a colliding base entry). -/
def fullMap (tr : GobstonesTranslator) (useNames : Bool)
    (map : JsMap Str Str) (namesMap : Option (JsMap Str Str)) :
    Except ThrownError (JsMap Str Str) :=
  if useNames && tr.names.isNone then .error .noNamesGiven
  else .ok (if !useNames then map
    else jsOfList (map ++ (namesMap.getD [])))

/-- toTokens: requires the source locale; the effective map is the source
locale reverse view merged through fullMap with the names forward view.
The registry access on a missing locale name would be a TypeError in
JavaScript; the constructor validation makes it unreachable. -/
def toTokens (tr : GobstonesTranslator) (code : Str) (includeNames : Bool) :
    Except ThrownError Str :=
  match tr.fromLoc with
  | none => .error .noFromLocaleGiven
  | some f =>
      match jsGet tr.registeredLocales f with
      | none => .error .typeError
      | some loc => do
          let m ← tr.fullMap includeNames loc.getMapByValues
            (tr.names.map (fun n => n.getMapByKeys))
          return translateWithMap m code

/-- fromTokens: requires the destination locale; the effective map is the
destination locale forward view merged through fullMap with the names
reverse view. -/
def fromTokens (tr : GobstonesTranslator) (code : Str) (includeNames : Bool) :
    Except ThrownError Str :=
  match tr.toLoc with
  | none => .error .noToLocaleGiven
  | some t =>
      match jsGet tr.registeredLocales t with
      | none => .error .typeError
      | some loc => do
          let m ← tr.fullMap includeNames loc.getMapByKeys
            (tr.names.map (fun n => n.getMapByValues))
          return translateWithMap m code

/-- translate: toTokens with the caller options, then fromTokens with the
options overwritten so that includeNames is false. -/
def translate (tr : GobstonesTranslator) (code : Str) (includeNames : Bool) :
    Except ThrownError Str := do
  let keywordCode ← tr.toTokens code includeNames
  tr.fromTokens keywordCode false

end GobstonesTranslator

/-- One span of the alternating decomposition of a string: a word or a
single separator character. This is the spec-side vocabulary used to
state formatting preservation and round trips. -/
inductive Span
  | word (w : Str)
  | sep (c : Char)
deriving DecidableEq

/-- Concatenate a list of spans back into a string. -/
def renderSpans : List Span → Str
  | [] => []
  | Span.word w :: rest => w ++ renderSpans rest
  | Span.sep c :: rest => c :: renderSpans rest

/-- One span is well formed when a word span is nonempty and made of word
characters only, and a separator span carries a separator character. -/
def spanOK : Span → Bool
  | Span.word w => !w.isEmpty && w.all isAlphaChar
  | Span.sep c => !isAlphaChar c

/-- No word span directly follows another word span, so that word spans
are maximal runs. -/
def noTwoWords : List Span → Bool
  | Span.word _ :: Span.word _ :: _ => false
  | _ :: rest => noTwoWords rest
  | [] => true

/-- A well-formed decomposition: every span well formed and word spans
maximal. -/
def wfSpans (l : List Span) : Bool := l.all spanOK && noTwoWords l

/-- The canonical decomposition of a string: a maximal run of word
characters becomes one word span, every other character a separator span
of its own. -/
def decompose : Str → List Span
  | [] => []
  | c :: cs =>
    if isAlphaChar c then
      Span.word (c :: cs.takeWhile isAlphaChar) :: decompose (cs.dropWhile isAlphaChar)
    else Span.sep c :: decompose cs
termination_by s => s.length
decreasing_by
  · have h := (List.dropWhile_sublist (l := cs) isAlphaChar).length_le
    simp only [List.length_cons]
    omega
  · simp only [List.length_cons]
    omega

/-- How one span comes out of the translation loop: a word span is looked
up in the map and passes through on a miss, a separator is copied. -/
def translateSpan (m : JsMap Str Str) : Span → Span
  | Span.word w => Span.word ((jsGet m w).getD w)
  | Span.sep c => Span.sep c

/-- The value of the last pair of a sequence that holds the given key:
the spec-side reading of last-write-wins construction. -/
def lastValueOf {K V : Type} [DecidableEq K] (l : List (K × V)) (k : K) : Option V :=
  (l.reverse.find? (fun p => decide (p.1 = k))).map Prod.snd

/-- The key of the last pair of a sequence that holds the given value. -/
def lastKeyOf {K V : Type} [DecidableEq V] (l : List (K × V)) (v : V) : Option K :=
  (l.reverse.find? (fun p => decide (p.2 = v))).map Prod.fst

/-- Decorate a bare token name with the token decoration strings. -/
def decorate (tokenPre tokenSuf bare : Str) : Str := tokenPre ++ bare ++ tokenSuf

/-- The key stripping getExtendedDefinitionEntries performs to recover a
bare token name from a decorated key. -/
def bareOf (tokenPre tokenSuf key : Str) : Str :=
  let k1 := if tokenPre.isPrefixOf key then key.drop tokenPre.length else key
  if tokenSuf.isSuffixOf k1 then k1.take (k1.length - tokenSuf.length) else k1

/-- The spelling an extending definition leaves at a bare token name: the
supplied spelling when truthy, the inherited one otherwise. -/
def overrideSpelling (d : LocaleDefinition) (bare v : Str) : Str :=
  (truthyLookup d bare).getD v

/-- The built-in registry a construction with the given options builds
first: availableLocales registered with the configured decoration. -/
def builtinRegistry (options : GobstonesTranslatorOptions) : Except ThrownError Registry :=
  registerAllLocales (options.tokenPre.getD (str "$")) (options.tokenSuf.getD (str "$"))
    [] availableLocales

/-- The registry state the construction with the given options reaches
once the built-in locales and then the given leading user-supplied
definitions have been registered. -/
def registryAfter (options : GobstonesTranslatorOptions)
    (processed : List (Str × LocaleDefinition)) : Except ThrownError Registry :=
  (builtinRegistry options).bind (fun r =>
    registerAllLocales (options.tokenPre.getD (str "$")) (options.tokenSuf.getD (str "$"))
      r processed)

/-- Whether that registry state is reached and resolves a name. -/
def registryAfterHas (options : GobstonesTranslatorOptions)
    (processed : List (Str × LocaleDefinition)) (name : Str) : Bool :=
  match registryAfter options processed with
  | .ok r => jsHas r name
  | .error _ => false

/-- A small translator state used to exercise the theorems on concrete
inputs: one registered locale named aa with a single token, and a names
map. -/
def sampleTranslator : GobstonesTranslator :=
  { fromLoc := some (str "aa")
    toLoc := some (str "aa")
    names := some (BidirectionalMap.ofPairs [(str "foo", str "bar")])
    registeredLocales := [(str "aa", BidirectionalMap.ofPairs [(str "$T$", str "Hello")])]
    tokenPre := str "$"
    tokenSuf := str "$" }

/-!
Infrastructure lemmas about the JavaScript Map model.
-/

/-- Replacing the entries at one key does not change lookups at other
keys. -/
theorem jsGet_map_replace_ne {α β : Type} [DecidableEq α] (m : JsMap α β) (k : α) (v : β)
    (x : α) (hx : k ≠ x) :
    jsGet (m.map (fun p => if p.1 = k then (k, v) else p)) x = jsGet m x := by
  induction m with
  | nil => rfl
  | cons p rest ih =>
    by_cases hp : p.1 = k
    · simp only [List.map_cons, jsGet, hp, if_pos rfl]
      rw [if_neg hx, if_neg (hp ▸ hx), ih]
    · simp only [List.map_cons, jsGet, if_neg hp]
      by_cases hpx : p.1 = x
      · rw [if_pos hpx, if_pos hpx]
      · rw [if_neg hpx, if_neg hpx, ih]

/-- Replacing the entries at a present key makes lookups at it yield the
new value. -/
theorem jsGet_map_replace_self {α β : Type} [DecidableEq α] (m : JsMap α β) (k : α) (v : β)
    (hm : m.any (fun p => p.1 = k) = true) :
    jsGet (m.map (fun p => if p.1 = k then (k, v) else p)) k = some v := by
  induction m with
  | nil => simp at hm
  | cons p rest ih =>
    by_cases hp : p.1 = k
    · simp [List.map_cons, if_pos hp, jsGet]
    · simp only [List.any_cons, Bool.or_eq_true, decide_eq_true_eq] at hm
      rcases hm with hm | hm
      · exact absurd hm hp
      · simp only [List.map_cons, if_neg hp, jsGet, if_neg hp]
        exact ih hm

/-- Lookup distributes over appending maps, preferring the first. -/
theorem jsGet_append {α β : Type} [DecidableEq α] (m₁ m₂ : JsMap α β) (x : α) :
    jsGet (m₁ ++ m₂) x =
      match jsGet m₁ x with
      | some v => some v
      | none => jsGet m₂ x := by
  induction m₁ with
  | nil => rfl
  | cons p rest ih =>
    by_cases hp : p.1 = x
    · simp only [List.cons_append, jsGet, if_pos hp]
    · rw [List.cons_append]
      simp only [jsGet, if_neg hp]
      exact ih

/-- A key no entry carries is absent. -/
theorem jsGet_eq_none_of_not_any {α β : Type} [DecidableEq α] (m : JsMap α β) (k : α)
    (hm : m.any (fun p => p.1 = k) = false) : jsGet m k = none := by
  induction m with
  | nil => rfl
  | cons p rest ih =>
    simp only [List.any_cons, Bool.or_eq_false_iff, decide_eq_false_iff_not] at hm
    simp only [jsGet, if_neg hm.1]
    exact ih hm.2

/-- The characterizing equation of Map.set: lookups after a set read the
new value at the set key and are untouched elsewhere. -/
theorem jsGet_jsSet {α β : Type} [DecidableEq α] (m : JsMap α β) (k : α) (v : β) (x : α) :
    jsGet (jsSet m k v) x = if k = x then some v else jsGet m x := by
  unfold jsSet
  by_cases hm : m.any (fun p => p.1 = k) = true
  · rw [if_pos hm]
    by_cases hx : k = x
    · subst hx
      rw [if_pos rfl, jsGet_map_replace_self m k v hm]
    · rw [if_neg hx, jsGet_map_replace_ne m k v x hx]
  · have hm' : m.any (fun p => p.1 = k) = false := by
      revert hm
      cases m.any (fun p => p.1 = k) <;> simp
    rw [if_neg hm, jsGet_append]
    by_cases hx : k = x
    · subst hx
      rw [jsGet_eq_none_of_not_any m k hm']
      simp [jsGet]
    · cases h : jsGet m x <;> simp [jsGet, hx, h]

/-- Building a map from one more pair sets that pair last. -/
theorem jsOfList_append_singleton {α β : Type} [DecidableEq α] (l : List (α × β)) (p : α × β) :
    jsOfList (l ++ [p]) = jsSet (jsOfList l) p.1 p.2 := by
  unfold jsOfList
  rw [List.foldl_append]
  rfl

/-- new Map(pairs) realizes last-write-wins: looking a key up reads the
value of the last pair that carries it. -/
theorem jsGet_jsOfList {α β : Type} [DecidableEq α] (l : List (α × β)) (k : α) :
    jsGet (jsOfList l) k = lastValueOf l k := by
  induction l using List.reverseRecOn with
  | nil => rfl
  | append_singleton l p ih =>
    rw [jsOfList_append_singleton, jsGet_jsSet, lastValueOf, List.reverse_append]
    simp only [List.reverse_cons, List.reverse_nil, List.nil_append, List.singleton_append,
      List.find?]
    by_cases hp : p.1 = k
    · rw [if_pos hp]
      simp [hp]
    · rw [if_neg hp]
      simp only [decide_eq_true_eq, hp, decide_False]
      exact ih

/-- The reverse map built by the BidirectionalMap constructor realizes
last-write-wins on values: looking a value up reads the key of the last
pair that carries it. -/
theorem jsGet_reverseFold {K V : Type} [DecidableEq K] [DecidableEq V]
    (l : List (K × V)) (v : V) :
    jsGet (l.foldl (fun m p => jsSet m p.2 p.1) []) v = lastKeyOf l v := by
  induction l using List.reverseRecOn with
  | nil => rfl
  | append_singleton l p ih =>
    rw [List.foldl_append, List.foldl_cons, List.foldl_nil, jsGet_jsSet, lastKeyOf,
      List.reverse_append]
    simp only [List.reverse_cons, List.reverse_nil, List.nil_append, List.singleton_append,
      List.find?]
    by_cases hp : p.2 = v
    · rw [if_pos hp]
      simp [hp]
    · rw [if_neg hp]
      simp only [decide_eq_true_eq, hp, decide_False]
      exact ih

/-- Folding Map.set over pairs whose keys are all fresh just appends the
pairs. -/
theorem foldl_jsSet_of_nodup {α β : Type} [DecidableEq α] :
    ∀ (l : List (α × β)) (acc : JsMap α β),
      (acc.map Prod.fst ++ l.map Prod.fst).Nodup →
      l.foldl (fun m p => jsSet m p.1 p.2) acc = acc ++ l
  | [], acc, _ => by simp
  | p :: l, acc, h => by
    have hd : (acc.map Prod.fst).Disjoint (p.1 :: l.map Prod.fst) := by
      have := (List.nodup_append.mp (by simpa using h)).2.2
      exact this
    have hnotmem : p.1 ∉ acc.map Prod.fst := fun hmem =>
      hd hmem (List.mem_cons_self _ _)
    have hany : acc.any (fun q => q.1 = p.1) = false := by
      by_contra hc
      have : acc.any (fun q => q.1 = p.1) = true := by
        revert hc
        cases acc.any (fun q => q.1 = p.1) <;> simp
      rcases List.any_eq_true.mp this with ⟨q, hq, hq1⟩
      exact hnotmem (List.mem_map.mpr ⟨q, hq, by simpa using hq1⟩)
    have hset : jsSet acc p.1 p.2 = acc ++ [p] := by
      unfold jsSet
      rw [if_neg (by simp [hany])]
    have h' : ((acc ++ [p]).map Prod.fst ++ l.map Prod.fst).Nodup := by
      simpa [List.append_assoc] using h
    rw [List.foldl_cons, hset, foldl_jsSet_of_nodup l (acc ++ [p]) h']
    simp

/-- new Map(pairs) over distinct keys is the pairs themselves. -/
theorem jsOfList_eq_self_of_nodup {α β : Type} [DecidableEq α] (l : List (α × β))
    (h : (l.map Prod.fst).Nodup) : jsOfList l = l := by
  unfold jsOfList
  rw [foldl_jsSet_of_nodup l [] (by simpa using h)]
  simp

/-- Over distinct keys, membership of a pair pins its lookup down. -/
theorem jsGet_eq_of_mem_nodup {α β : Type} [DecidableEq α] :
    ∀ {l : List (α × β)} {k : α} {w : β},
      (l.map Prod.fst).Nodup → (k, w) ∈ l → jsGet l k = some w
  | [], _, _, _, hmem => by simp at hmem
  | p :: l, k, w, h, hmem => by
    have h' : (∀ x : β, (p.1, x) ∉ l) ∧ (List.map Prod.fst l).Nodup := by simpa using h
    rcases List.mem_cons.mp hmem with hmem | hmem
    · subst hmem
      simp [jsGet]
    · have hp : p.1 ≠ k := by
        intro hpk
        exact h'.1 w (by rwa [hpk])
      simp only [jsGet, if_neg hp]
      exact jsGet_eq_of_mem_nodup h'.2 hmem

/-- The pair a lastKeyOf hit comes from is in the sequence. -/
theorem lastKeyOf_mem {K V : Type} [DecidableEq V] {l : List (K × V)} {v : V} {k : K}
    (h : lastKeyOf l v = some k) : (k, v) ∈ l := by
  unfold lastKeyOf at h
  cases hf : l.reverse.find? (fun p => decide (p.2 = v)) with
  | none => rw [hf] at h; simp at h
  | some p =>
    rw [hf] at h
    have hmem := List.mem_reverse.mp (List.mem_of_find?_eq_some hf)
    have hpv : p.2 = v := by simpa using List.find?_some hf
    have hpk : p.1 = k := by simpa using h
    have : p = (k, v) := Prod.ext hpk hpv
    exact this ▸ hmem

/-- Over definition entries with distinct keys, a reverse hit of the
bidirectional map round-trips through the forward direction. -/
theorem getByKey_getByValue_of_nodup {K V : Type} [DecidableEq K] [DecidableEq V]
    {l : List (K × V)} (h : (l.map Prod.fst).Nodup) {w : V} {k : K}
    (hv : (BidirectionalMap.ofPairs l).getByValue w = some k) :
    (BidirectionalMap.ofPairs l).getByKey k = some w := by
  have h1 : lastKeyOf l w = some k := by
    rw [← jsGet_reverseFold]
    exact hv
  have h2 : (k, w) ∈ l := lastKeyOf_mem h1
  show jsGet (jsOfList l) k = some w
  rw [jsOfList_eq_self_of_nodup l h]
  exact jsGet_eq_of_mem_nodup h h2

/-!
Lemmas about the span decomposition and the scanner loop.
-/

open StringReader in
/-- countAlpha of a string starting with a word character is positive. -/
theorem countAlpha_pos {c : Char} {cs : Str} (h : isAlphaChar c = true) :
    0 < countAlpha (c :: cs) := by
  simp [countAlpha, h]

open StringReader in
/-- countAlpha walks through a leading all-word-character run. -/
theorem countAlpha_append_all (w t : Str) (hw : w.all isAlphaChar = true) :
    countAlpha (w ++ t) = w.length + countAlpha t := by
  induction w with
  | nil => simp [countAlpha]
  | cons c w ih =>
    simp only [List.all_cons, Bool.and_eq_true] at hw
    have hstep : countAlpha ((c :: w) ++ t) = countAlpha (w ++ t) + 1 := by
      simp [countAlpha, hw.1]
    rw [hstep, ih hw.2]
    simp only [List.length_cons]
    omega

/-- The head of a dropWhile result falsifies the predicate. -/
theorem dropWhile_head_false (p : Char → Bool) :
    ∀ (l : Str) (c : Char) (t : Str), l.dropWhile p = c :: t → p c = false
  | [], c, t, h => by simp at h
  | a :: l, c, t, h => by
    by_cases ha : p a = true
    · rw [List.dropWhile_cons_of_pos ha] at h
      exact dropWhile_head_false p l c t h
    · rw [List.dropWhile_cons_of_neg ha] at h
      injection h with h1 h2
      subst h1
      revert ha
      cases p a <;> simp

/-- noTwoWords steps over a separator span. -/
theorem noTwoWords_cons_sep (c : Char) (rest : List Span) :
    noTwoWords (Span.sep c :: rest) = noTwoWords rest := by
  cases rest <;> rfl

/-- noTwoWords steps over a word span followed by a separator span. -/
theorem noTwoWords_word_sep (w : Str) (c : Char) (t : List Span) :
    noTwoWords (Span.word w :: Span.sep c :: t) = noTwoWords (Span.sep c :: t) := rfl

/-- Rendering the canonical decomposition gives the string back. -/
theorem renderSpans_decompose (s : Str) : renderSpans (decompose s) = s := by
  induction s using decompose.induct with
  | case1 => simp [decompose, renderSpans]
  | case2 c cs h ih =>
    simp only [decompose, if_pos h, renderSpans, ih]
    simp [List.takeWhile_append_dropWhile]
  | case3 c cs h ih =>
    simp only [decompose, if_neg h, renderSpans, ih]

/-- Every span of the canonical decomposition is well formed. -/
theorem all_spanOK_decompose (s : Str) : (decompose s).all spanOK = true := by
  induction s using decompose.induct with
  | case1 => simp [decompose]
  | case2 c cs h ih =>
    simp only [decompose, if_pos h, List.all_cons, Bool.and_eq_true]
    exact ⟨by simp [spanOK, h, List.all_takeWhile], ih⟩
  | case3 c cs h ih =>
    simp only [decompose, if_neg h, List.all_cons, Bool.and_eq_true]
    refine ⟨by simp only [spanOK]; simpa using h, ih⟩

/-- Word spans of the canonical decomposition are maximal. -/
theorem noTwoWords_decompose (s : Str) : noTwoWords (decompose s) = true := by
  induction s using decompose.induct with
  | case1 => simp [decompose, noTwoWords]
  | case2 c cs h ih =>
    simp only [decompose, if_pos h]
    cases hd : cs.dropWhile isAlphaChar with
    | nil =>
      simp [decompose, noTwoWords]
    | cons c' t =>
      have hc' : isAlphaChar c' = false := dropWhile_head_false _ cs c' t hd
      have hdec : decompose (c' :: t) = Span.sep c' :: decompose t := by
        simp [decompose, hc']
      rw [hd] at ih
      rw [hdec] at ih ⊢
      rw [noTwoWords_word_sep]
      exact ih
  | case3 c cs h ih =>
    simp only [decompose, if_neg h]
    rw [noTwoWords_cons_sep]
    exact ih

/-- The canonical decomposition is well formed. -/
theorem wfSpans_decompose (s : Str) : wfSpans (decompose s) = true := by
  unfold wfSpans
  rw [all_spanOK_decompose, noTwoWords_decompose]
  rfl

/-- Translating spans does not change the word or separator shape, so word
maximality survives. -/
theorem noTwoWords_map (m : JsMap Str Str) :
    ∀ (items : List Span), noTwoWords (items.map (translateSpan m)) = noTwoWords items
  | [] => rfl
  | [sp] => by cases sp <;> rfl
  | a :: b :: t => by
    cases a with
    | word w₁ =>
      cases b with
      | word w₂ => rfl
      | sep c => exact noTwoWords_map m (Span.sep c :: t)
    | sep c => exact noTwoWords_map m (b :: t)

open StringReader in
/-- The scanner loop on a well-formed span rendering translates span by
span: word spans go through the map, separator spans are copied. -/
theorem translateWithMapAux_renderSpans (m : JsMap Str Str) :
    ∀ (items : List Span) (s : Str) (i fuel : Nat),
      s.drop i = renderSpans items →
      wfSpans items = true →
      s.length - i ≤ fuel →
      translateWithMapAux m s i fuel = renderSpans (items.map (translateSpan m))
  | [], s, i, fuel, hdrop, _, _ => by
    have hle : s.length ≤ i := by
      by_contra hlt
      push_neg at hlt
      have h1 := List.drop_eq_getElem_cons hlt
      rw [hdrop] at h1
      exact List.cons_ne_nil _ _ h1.symm
    cases fuel with
    | zero => rfl
    | succ f =>
      simp only [translateWithMapAux]
      rw [dif_neg (by omega)]
      simp [renderSpans]
  | Span.word w :: rest, s, i, fuel, hdrop, hwf, hfuel => by
    have hboth : ((Span.word w :: rest).all spanOK = true) ∧
        noTwoWords (Span.word w :: rest) = true := by
      simpa [wfSpans] using hwf
    have hall : spanOK (Span.word w) = true ∧ rest.all spanOK = true := by
      simpa [List.all_cons] using hboth.1
    have hnt : noTwoWords (Span.word w :: rest) = true := hboth.2
    have hwall : w.all isAlphaChar = true := by
      have h1 := hall.1
      simp only [spanOK, Bool.and_eq_true] at h1
      exact h1.2
    have hwne : w ≠ [] := by
      have h1 := hall.1
      simp only [spanOK, Bool.and_eq_true] at h1
      intro hnil
      rw [hnil] at h1
      simp at h1
    obtain ⟨c, w1, hw⟩ : ∃ c w1, w = c :: w1 := by
      cases w with
      | nil => exact absurd rfl hwne
      | cons c w1 => exact ⟨c, w1, rfl⟩
    have hcalpha : isAlphaChar c = true := by
      rw [hw] at hwall
      simp only [List.all_cons, Bool.and_eq_true] at hwall
      exact hwall.1
    have hdropc : s.drop i = c :: (w1 ++ renderSpans rest) := by
      rw [hdrop, hw]
      simp [renderSpans]
    have hi : i < s.length := by
      by_contra hge
      push_neg at hge
      have hnil : s.drop i = [] := List.drop_eq_nil_of_le hge
      rw [hnil] at hdropc
      exact List.cons_ne_nil _ _ hdropc.symm
    cases fuel with
    | zero => exact absurd hfuel (by omega)
    | succ f =>
      have hgetcons := List.drop_eq_getElem_cons hi
      have hchain : c :: (w1 ++ renderSpans rest) = s[i] :: s.drop (i + 1) := by
        rw [← hdropc, hgetcons]
      injection hchain with hc hrest2
      have hoffset : countAlpha (s.drop i) = w.length := by
        rw [hdrop]
        have hz : countAlpha (renderSpans rest) = 0 := by
          cases rest with
          | nil => simp [renderSpans, countAlpha]
          | cons sp t =>
            cases sp with
            | word w₂ => simp [noTwoWords] at hnt
            | sep c₂ =>
              have hc₂ : isAlphaChar c₂ = false := by
                have h2 := hall.2
                simp only [List.all_cons, Bool.and_eq_true] at h2
                have h3 := h2.1
                simp only [spanOK] at h3
                simpa using h3
              simp [renderSpans, countAlpha, hc₂]
        have hr : renderSpans (Span.word w :: rest) = w ++ renderSpans rest := by
          simp [renderSpans]
        rw [hr, countAlpha_append_all w (renderSpans rest) hwall, hz]
        omega
      have hword : (s.drop i).take (countAlpha (s.drop i)) = w := by
        rw [hoffset, hdrop]
        have hr : renderSpans (Span.word w :: rest) = w ++ renderSpans rest := by
          simp [renderSpans]
        rw [hr]
        exact List.take_left w (renderSpans rest)
      simp only [translateWithMapAux]
      rw [dif_pos hi]
      have hgeteq : s.get ⟨i, hi⟩ = c := by
        rw [List.get_eq_getElem]
        exact hc.symm
      rw [hgeteq, if_pos hcalpha, hword, hoffset]
      have hempty : w.isEmpty = false := by
        rw [hw]
        rfl
      rw [hempty]
      have hdrop2 : s.drop (i + w.length) = renderSpans rest := by
        rw [← List.drop_drop, hdrop]
        have hr : renderSpans (Span.word w :: rest) = w ++ renderSpans rest := by
          simp [renderSpans]
        rw [hr]
        exact List.drop_left w (renderSpans rest)
      have hwfrest : wfSpans rest = true := by
        unfold wfSpans
        rw [hall.2]
        have hntr : noTwoWords rest = true := by
          cases rest with
          | nil => rfl
          | cons sp t =>
            cases sp with
            | word w₂ => simp [noTwoWords] at hnt
            | sep c₂ =>
              rw [noTwoWords_word_sep] at hnt
              exact hnt
        rw [hntr]
        rfl
      have hw1len : 1 ≤ w.length := by
        rw [hw]
        simp
      rw [translateWithMapAux_renderSpans m rest s (i + w.length) f hdrop2 hwfrest (by omega)]
      simp [renderSpans, translateSpan, List.map_cons]
  | Span.sep c :: rest, s, i, fuel, hdrop, hwf, hfuel => by
    have hboth : ((Span.sep c :: rest).all spanOK = true) ∧
        noTwoWords (Span.sep c :: rest) = true := by
      simpa [wfSpans] using hwf
    have hall : spanOK (Span.sep c) = true ∧ rest.all spanOK = true := by
      simpa [List.all_cons] using hboth.1
    have hnt : noTwoWords (Span.sep c :: rest) = true := hboth.2
    have hcal : isAlphaChar c = false := by
      have h1 := hall.1
      simp only [spanOK] at h1
      simpa using h1
    have hdropc : s.drop i = c :: renderSpans rest := by
      rw [hdrop]
      simp [renderSpans]
    have hi : i < s.length := by
      by_contra hge
      push_neg at hge
      have hnil : s.drop i = [] := List.drop_eq_nil_of_le hge
      rw [hnil] at hdropc
      exact List.cons_ne_nil _ _ hdropc.symm
    cases fuel with
    | zero => exact absurd hfuel (by omega)
    | succ f =>
      have hgetcons := List.drop_eq_getElem_cons hi
      have hchain : c :: renderSpans rest = s[i] :: s.drop (i + 1) := by
        rw [← hdropc, hgetcons]
      injection hchain with hc hrest2
      simp only [translateWithMapAux]
      rw [dif_pos hi]
      have hgeteq : s.get ⟨i, hi⟩ = c := by
        rw [List.get_eq_getElem]
        exact hc.symm
      rw [hgeteq, if_neg (by simp [hcal])]
      have hwfrest : wfSpans rest = true := by
        unfold wfSpans
        rw [hall.2]
        rw [noTwoWords_cons_sep] at hnt
        rw [hnt]
        rfl
      rw [translateWithMapAux_renderSpans m rest s (i + 1) f hrest2.symm hwfrest (by omega)]
      simp [renderSpans, translateSpan, List.map_cons]

open StringReader in
/-- translateWithMap on a well-formed span rendering translates span by
span. -/
theorem translateWithMap_renderSpans (m : JsMap Str Str) (items : List Span)
    (h : wfSpans items = true) :
    translateWithMap m (renderSpans items) = renderSpans (items.map (translateSpan m)) :=
  translateWithMapAux_renderSpans m items (renderSpans items) 0 (renderSpans items).length
    (by simp) h (by omega)

/-!
Claim theorems.
-/

/-- C10: the declared-optional pairs argument of the BidirectionalMap
constructor is not actually optional: construction with the argument
absent throws a TypeError, because the constructor unconditionally
iterates the argument to build the reverse map, while construction from
any actually supplied list of pairs succeeds, the empty list included. -/
theorem bidirectionalMap_construct_optional {K V : Type}
    [DecidableEq K] [DecidableEq V] :
    (BidirectionalMap.construct (K := K) (V := V) none = .error .typeError)
    ∧ (∀ pairs : List (K × V),
        BidirectionalMap.construct (some pairs) = .ok (BidirectionalMap.ofPairs pairs))
    ∧ BidirectionalMap.construct (K := K) (V := V) (some [])
        = .ok (BidirectionalMap.ofPairs []) :=
  ⟨rfl, fun _ => rfl, rfl⟩

/-- C9 counterexample: from the pairs [(a, 1), (a, 2)], the pair (a, 1)
is superseded by the later pair with the same key, and getByKey does read
the later value; yet the reverse entry of the superseded pair survives:
getByValue at 1 still answers a, against the claim that no entry of a
superseded pair remains in either direction. -/
theorem bidirectional_stale_entry_counterexample :
    (BidirectionalMap.ofPairs [(str "a", str "1"), (str "a", str "2")]).getByKey (str "a")
        = some (str "2")
    ∧ (BidirectionalMap.ofPairs [(str "a", str "1"), (str "a", str "2")]).hasValue (str "1")
        = true
    ∧ (BidirectionalMap.ofPairs [(str "a", str "1"), (str "a", str "2")]).getByValue (str "1")
        = some (str "a") := by
  decide

/-- C9 amended: construction from a sequence of pairs is last-write-wins
for both lookup directions: getByKey answers the value of the last pair
carrying the key, getByValue the key of the last pair carrying the value;
however an entry of a superseded pair may survive in the opposite
direction, as the counterexample shows. -/
theorem bidirectional_last_write_wins {K V : Type} [DecidableEq K] [DecidableEq V]
    (pairs : List (K × V)) (k : K) (v : V) :
    (BidirectionalMap.ofPairs pairs).getByKey k = lastValueOf pairs k
    ∧ (BidirectionalMap.ofPairs pairs).getByValue v = lastKeyOf pairs v :=
  ⟨jsGet_jsOfList pairs k, jsGet_reverseFold pairs v⟩

/-- C6 counterexample: on the string "(" the reader is not at end of
input, yet nextWord consumes nothing: it returns the empty word and the
position stays at 0, against the claim that every consuming operation
advances by at least one character when not at end of input. -/
theorem nextWord_no_advance_counterexample :
    (StringReader.mk (str "(") 0).eof = false
    ∧ (StringReader.mk (str "(") 0).nextWord = (some [], StringReader.mk (str "(") 0) := by
  decide

/-- charAt within range is the indexed character. -/
theorem charAt_lt (s : Str) (i : Nat) (hi : i < s.length) :
    StringReader.charAt s i = some s[i] := by
  unfold StringReader.charAt
  rw [List.get?_eq_getElem?, List.getElem?_eq_getElem hi]

/-- eof is false exactly within range. -/
theorem eof_false_iff (s : Str) (i : Nat) :
    (StringReader.mk s i).eof = false ↔ i < s.length := by
  simp only [StringReader.eof, ge_iff_le, decide_eq_false_iff_not, Nat.not_le]

/-- Within range, isWord reads the character class at the index. -/
theorem isWord_eq (s : Str) (i : Nat) (hi : i < s.length) :
    (StringReader.mk s i).isWord = isAlphaChar s[i] := by
  unfold StringReader.isWord
  rw [if_neg (by simp only [StringReader.eof, ge_iff_le, decide_eq_true_eq]; omega),
    charAt_lt s i hi]
  rfl

/-- C6 amended: off end of input, nextChar always consumes one character,
and nextWord advances by at least one exactly when the current position
starts a word; at a separator position nextWord returns the empty word
and does not advance; at end of input both operations return the absent
sentinel and leave the reader unchanged. -/
theorem reader_advance_amended (sr : StringReader) :
    (sr.eof = false →
      (sr.nextChar).2.index = sr.index + 1 ∧ (sr.nextChar).1.isSome = true)
    ∧ (sr.isWord = true →
      sr.index + 1 ≤ (sr.nextWord).2.index ∧ (sr.nextWord).1.isSome = true)
    ∧ (sr.eof = false → sr.isWord = false → sr.nextWord = (some [], sr))
    ∧ (sr.eof = true → sr.nextChar = (none, sr) ∧ sr.nextWord = (none, sr)) := by
  obtain ⟨s, i⟩ := sr
  refine ⟨?_, ?_, ?_, ?_⟩
  · intro h
    have hi : i < s.length := (eof_false_iff s i).mp h
    have h' : ¬ ((StringReader.mk s i).eof = true) := by
      rw [h]
      simp
    constructor
    · unfold StringReader.nextChar
      rw [if_neg h']
    · unfold StringReader.nextChar
      rw [if_neg h', charAt_lt s i hi]
      rfl
  · intro h
    have hi : i < s.length := by
      by_contra hge
      push_neg at hge
      have hfalse : (StringReader.mk s i).isWord = false := by
        unfold StringReader.isWord
        rw [if_pos (by simp only [StringReader.eof, ge_iff_le, decide_eq_true_eq]; omega)]
      rw [hfalse] at h
      simp at h
    have halpha : isAlphaChar s[i] = true := by
      rw [← isWord_eq s i hi]
      exact h
    have hpos : 0 < StringReader.countAlpha (s.drop i) := by
      rw [List.drop_eq_getElem_cons hi]
      exact countAlpha_pos halpha
    have h' : ¬ ((StringReader.mk s i).eof = true) := by
      simp only [StringReader.eof, ge_iff_le, decide_eq_true_eq]
      omega
    constructor
    · unfold StringReader.nextWord
      rw [if_neg h']
      simp only [StringReader.offsetToNonAlpha]
      omega
    · unfold StringReader.nextWord
      rw [if_neg h']
      simp
  · intro he hw
    have hi : i < s.length := (eof_false_iff s i).mp he
    have hnal : isAlphaChar s[i] = false := by
      rw [← isWord_eq s i hi]
      exact hw
    have hzero : StringReader.countAlpha (s.drop i) = 0 := by
      rw [List.drop_eq_getElem_cons hi]
      simp [StringReader.countAlpha, hnal]
    have h' : ¬ ((StringReader.mk s i).eof = true) := by
      rw [he]
      simp
    unfold StringReader.nextWord
    rw [if_neg h']
    simp only [StringReader.offsetToNonAlpha, hzero]
    simp
  · intro he
    constructor
    · unfold StringReader.nextChar
      rw [if_pos he]
    · unfold StringReader.nextWord
      rw [if_pos he]

/-- C8: fromTokens throws NoToLocaleGiven exactly when the translator
carries no destination locale; the check precedes every registry access
and every scan, so the outcome does not depend on the input, and a
translator with a destination locale configured never produces this
error (other errors remain possible, but never this one). -/
theorem fromTokens_noToLocale_iff (tr : GobstonesTranslator) (code : Str)
    (includeNames : Bool) :
    tr.fromTokens code includeNames = .error .noToLocaleGiven ↔ tr.toLoc = none := by
  cases ht : tr.toLoc with
  | none => simp [GobstonesTranslator.fromTokens, ht]
  | some t =>
    simp only [GobstonesTranslator.fromTokens, ht]
    cases hreg : jsGet tr.registeredLocales t with
    | none => simp
    | some loc =>
      simp only [GobstonesTranslator.fullMap]
      by_cases hn : (includeNames && tr.names.isNone) = true
      · rw [if_pos hn]
        simp [Bind.bind, Except.bind]
      · rw [if_neg hn]
        simp [Bind.bind, Except.bind, Pure.pure, Except.pure]

/-- C2: translate with names requested composes encode with names applied
and decode with names suppressed: the decode half never consults the
reverse view of the name-override map. -/
theorem translate_applies_names_only_on_encode (tr : GobstonesTranslator)
    (a b : Str) (nm : LanguageMap)
    (hf : tr.fromLoc = some a) (ht : tr.toLoc = some b) (hn : tr.names = some nm)
    (code : Str) :
    tr.translate code true
      = (tr.toTokens code true).bind (fun s => tr.fromTokens s false) := rfl

/-- Witness for C2 at a concrete translator and input. -/
theorem translate_applies_names_only_on_encode_witness :
    sampleTranslator.translate (str "foo") true
      = (sampleTranslator.toTokens (str "foo") true).bind
          (fun s => sampleTranslator.fromTokens s false) :=
  translate_applies_names_only_on_encode sampleTranslator (str "aa") (str "aa")
    (BidirectionalMap.ofPairs [(str "foo", str "bar")]) rfl rfl rfl (str "foo")

/-- C1 amended: for every flag value, translate composes encode under the
caller flag with decode under names suppressed; with useNames true this
differs from decoding under the same flag, as the counterexample shows. -/
theorem translate_compose_decode_without_names (tr : GobstonesTranslator)
    (a b : Str) (hf : tr.fromLoc = some a) (ht : tr.toLoc = some b)
    (code : Str) (useNames : Bool) :
    tr.translate code useNames
      = (tr.toTokens code useNames).bind (fun s => tr.fromTokens s false) := rfl

/-- Witness for the amended C1 at a concrete translator and input. -/
theorem translate_compose_decode_without_names_witness :
    sampleTranslator.translate (str "Hello") false
      = (sampleTranslator.toTokens (str "Hello") false).bind
          (fun s => sampleTranslator.fromTokens s false) :=
  translate_compose_decode_without_names sampleTranslator (str "aa") (str "aa")
    rfl rfl (str "Hello") false

/-- Every successful toTokens output is a translateWithMap run over some
map. -/
theorem toTokens_ok_shape (tr : GobstonesTranslator) (code : Str) (includeNames : Bool)
    (out : Str) (h : tr.toTokens code includeNames = .ok out) :
    ∃ m, out = translateWithMap m code := by
  unfold GobstonesTranslator.toTokens at h
  split at h
  · simp at h
  · split at h
    · simp at h
    · unfold GobstonesTranslator.fullMap at h
      split at h
      · simp [Bind.bind, Except.bind] at h
      · simp only [Bind.bind, Except.bind, Pure.pure, Except.pure, Except.ok.injEq] at h
        exact ⟨_, h.symm⟩

/-- Every successful fromTokens output is a translateWithMap run over
some map. -/
theorem fromTokens_ok_shape (tr : GobstonesTranslator) (code : Str) (includeNames : Bool)
    (out : Str) (h : tr.fromTokens code includeNames = .ok out) :
    ∃ m, out = translateWithMap m code := by
  unfold GobstonesTranslator.fromTokens at h
  split at h
  · simp at h
  · split at h
    · simp at h
    · unfold GobstonesTranslator.fullMap at h
      split at h
      · simp [Bind.bind, Except.bind] at h
      · simp only [Bind.bind, Except.bind, Pure.pure, Except.pure, Except.ok.injEq] at h
        exact ⟨_, h.symm⟩

/-- C4: every translation output renders the input's canonical span
decomposition with word spans mapped and separator spans copied verbatim
in place: stated for translateWithMap, the common path, and for each of
toTokens, fromTokens and translate (whose output renders the span
decomposition of the intermediate abstract text, itself of that shape
over the original input). -/
theorem translation_preserves_separators :
    (∀ (m : JsMap Str Str) (code : Str),
      translateWithMap m code = renderSpans ((decompose code).map (translateSpan m)))
    ∧ (∀ (tr : GobstonesTranslator) (code : Str) (includeNames : Bool) (out : Str),
      tr.toTokens code includeNames = .ok out →
      ∃ m, out = renderSpans ((decompose code).map (translateSpan m)))
    ∧ (∀ (tr : GobstonesTranslator) (code : Str) (includeNames : Bool) (out : Str),
      tr.fromTokens code includeNames = .ok out →
      ∃ m, out = renderSpans ((decompose code).map (translateSpan m)))
    ∧ (∀ (tr : GobstonesTranslator) (code : Str) (includeNames : Bool) (out : Str),
      tr.translate code includeNames = .ok out →
      ∃ m₁ m₂ mid, mid = renderSpans ((decompose code).map (translateSpan m₁))
        ∧ out = renderSpans ((decompose mid).map (translateSpan m₂))) := by
  have h1 : ∀ (m : JsMap Str Str) (code : Str),
      translateWithMap m code = renderSpans ((decompose code).map (translateSpan m)) := by
    intro m code
    conv_lhs => rw [← renderSpans_decompose code]
    exact translateWithMap_renderSpans m (decompose code) (wfSpans_decompose code)
  refine ⟨h1, ?_, ?_, ?_⟩
  · intro tr code u out h
    obtain ⟨m, hm⟩ := toTokens_ok_shape tr code u out h
    exact ⟨m, by rw [hm, h1]⟩
  · intro tr code u out h
    obtain ⟨m, hm⟩ := fromTokens_ok_shape tr code u out h
    exact ⟨m, by rw [hm, h1]⟩
  · intro tr code u out h
    unfold GobstonesTranslator.translate at h
    cases htk : tr.toTokens code u with
    | error e => rw [htk] at h; simp [Bind.bind, Except.bind] at h
    | ok mid =>
      rw [htk] at h
      simp only [Bind.bind, Except.bind] at h
      obtain ⟨m₁, hm₁⟩ := toTokens_ok_shape tr code u mid htk
      obtain ⟨m₂, hm₂⟩ := fromTokens_ok_shape tr mid false out h
      exact ⟨m₁, m₂, mid, by rw [hm₁, h1], by rw [hm₂, h1]⟩

/-- Stripping the decoration recovers the bare token name, whatever the
decoration strings are. -/
theorem bareOf_decorate (tokenPre tokenSuf bare : Str) :
    bareOf tokenPre tokenSuf (decorate tokenPre tokenSuf bare) = bare := by
  unfold bareOf decorate
  have hpre : tokenPre.isPrefixOf (tokenPre ++ bare ++ tokenSuf) = true := by
    rw [List.isPrefixOf_iff_prefix, List.append_assoc]
    exact ⟨bare ++ tokenSuf, rfl⟩
  rw [if_pos hpre, List.append_assoc, List.drop_left]
  have hsuf : tokenSuf.isSuffixOf (bare ++ tokenSuf) = true := by
    rw [List.isSuffixOf_iff_suffix]
    exact ⟨bare, rfl⟩
  rw [if_pos hsuf]
  have hlen : (bare ++ tokenSuf).length - tokenSuf.length = bare.length := by
    simp [List.length_append]
  rw [hlen]
  exact List.take_left bare tokenSuf

/-- The extension resolution walk, re-expressed entrywise: each inherited
entry keeps its decorated key and gets the override spelling of its bare
name. -/
theorem getExtendedDefinitionEntries_eq_map (tokenPre tokenSuf : Str)
    (base : LanguageMap) (d : LocaleDefinition) :
    getExtendedDefinitionEntries tokenPre tokenSuf base d
      = base.getMapByKeys.map
          (fun p => (p.1, overrideSpelling d (bareOf tokenPre tokenSuf p.1) p.2)) := by
  unfold getExtendedDefinitionEntries
  apply List.map_congr_left
  intro p hp
  show (match truthyLookup d (bareOf tokenPre tokenSuf p.1) with
        | some nv => (p.1, nv)
        | none => (p.1, p.2))
      = (p.1, overrideSpelling d (bareOf tokenPre tokenSuf p.1) p.2)
  cases htl : truthyLookup d (bareOf tokenPre tokenSuf p.1) with
  | none => simp [overrideSpelling, htl]
  | some nv => simp [overrideSpelling, htl]

/-- C5 counterexample: registering a definition that extends a registered
base and supplies the empty-string spelling for token name T does not map
the key to that supplied spelling: the empty string is falsy, so the
inherited spelling a is kept. -/
theorem extension_empty_override_counterexample :
    ((registerLocale (str "$") (str "$")
          [(str "base", BidirectionalMap.ofPairs [(str "$T$", str "a")])]
          (str "w")
          { ext := some (str "base"), entries := [(str "T", [])] }).toOption.bind
        (fun r => jsGet r (str "w"))).map (fun loc => loc.getByKey (str "$T$"))
      = some (some (str "a"))
    ∧ str "a" ≠ ([] : Str) := by
  decide

/-- C5 amended: extension resolution keeps the base's decorated key list
unchanged; a key whose bare token name has a truthy (nonempty) spelling
supplied in the extending definition is mapped to that spelling, an
empty-string spelling being ignored, and every other key keeps the
inherited spelling; registration stores exactly this resolution; and
because the stored base is always fully resolved, extending an extension
flattens to overrides applied in sequence over the original base. -/
theorem extension_resolution_amended (tokenPre tokenSuf : Str) (base : LanguageMap)
    (d : LocaleDefinition) :
    ((getExtendedDefinitionEntries tokenPre tokenSuf base d).map Prod.fst
        = base.getMapByKeys.map Prod.fst)
    ∧ (getExtendedDefinitionEntries tokenPre tokenSuf base d
        = base.getMapByKeys.map
            (fun p => (p.1, overrideSpelling d (bareOf tokenPre tokenSuf p.1) p.2)))
    ∧ (∀ bare v, (decorate tokenPre tokenSuf bare, v) ∈ base.getMapByKeys →
        (decorate tokenPre tokenSuf bare, overrideSpelling d bare v)
          ∈ getExtendedDefinitionEntries tokenPre tokenSuf base d)
    ∧ (∀ (reg : Registry) (name e : Str),
        d.ext = some e → jsGet reg e = some base → jsGet reg name = none →
        registerLocale tokenPre tokenSuf reg name d
          = .ok (jsSet reg name (BidirectionalMap.ofPairs
              (getExtendedDefinitionEntries tokenPre tokenSuf base d))))
    ∧ (∀ (d₂ : LocaleDefinition), (base.getMapByKeys.map Prod.fst).Nodup →
        getExtendedDefinitionEntries tokenPre tokenSuf
            (BidirectionalMap.ofPairs
              (getExtendedDefinitionEntries tokenPre tokenSuf base d)) d₂
          = base.getMapByKeys.map (fun p => (p.1,
              overrideSpelling d₂ (bareOf tokenPre tokenSuf p.1)
                (overrideSpelling d (bareOf tokenPre tokenSuf p.1) p.2)))) := by
  refine ⟨?_, getExtendedDefinitionEntries_eq_map tokenPre tokenSuf base d, ?_, ?_, ?_⟩
  · rw [getExtendedDefinitionEntries_eq_map, List.map_map]
    rfl
  · intro bare v hmem
    rw [getExtendedDefinitionEntries_eq_map]
    have hmap := List.mem_map_of_mem
      (fun p => (p.1, overrideSpelling d (bareOf tokenPre tokenSuf p.1) p.2)) hmem
    simpa [bareOf_decorate] using hmap
  · intro reg name e hext hbase hfresh
    unfold registerLocale
    rw [hext]
    simp [hbase, hfresh]
  · intro d₂ hnd
    have hentries : getExtendedDefinitionEntries tokenPre tokenSuf base d
        = base.getMapByKeys.map
            (fun p => (p.1, overrideSpelling d (bareOf tokenPre tokenSuf p.1) p.2)) :=
      getExtendedDefinitionEntries_eq_map tokenPre tokenSuf base d
    have hkeys : ((getExtendedDefinitionEntries tokenPre tokenSuf base d).map Prod.fst).Nodup := by
      rw [hentries, List.map_map]
      exact hnd
    rw [getExtendedDefinitionEntries_eq_map tokenPre tokenSuf _ d₂]
    show (jsOfList (getExtendedDefinitionEntries tokenPre tokenSuf base d)).map _ = _
    rw [jsOfList_eq_self_of_nodup _ hkeys, hentries, List.map_map]
    apply List.map_congr_left
    intro p hp
    rfl

/-- C3 amended: on a translator whose source and destination are the same
registered locale, built from definition entries with pairwise-distinct
keys, decoding the encoding restores any text whose word spans are
spellings known to the locale, provided the stored token of every such
spelling is itself a nonempty run of word characters (true of every
built-in locale under the default decoration); without that proviso a
token containing a separator character breaks the round trip, as the
counterexample shows. -/
theorem roundtrip_identity_amended (tr : GobstonesTranslator) (A : Str)
    (l : List (Str × Str)) (items : List Span)
    (hf : tr.fromLoc = some A) (ht : tr.toLoc = some A)
    (hreg : jsGet tr.registeredLocales A = some (BidirectionalMap.ofPairs l))
    (hnd : (l.map Prod.fst).Nodup)
    (hwf : wfSpans items = true)
    (hwords : ∀ w, Span.word w ∈ items →
      ∃ k, (BidirectionalMap.ofPairs l).getByValue w = some k
        ∧ k ≠ [] ∧ k.all isAlphaChar = true) :
    (tr.toTokens (renderSpans items) false).bind (fun s => tr.fromTokens s false)
      = .ok (renderSpans items) := by
  have htok : tr.toTokens (renderSpans items) false
      = .ok (translateWithMap (BidirectionalMap.ofPairs l).getMapByValues
          (renderSpans items)) := by
    unfold GobstonesTranslator.toTokens
    rw [hf]
    simp only [hreg]
    unfold GobstonesTranslator.fullMap
    rw [if_neg (by simp)]
    simp [Bind.bind, Except.bind, Pure.pure, Except.pure]
  have hfromtok : ∀ code : Str, tr.fromTokens code false
      = .ok (translateWithMap (BidirectionalMap.ofPairs l).getMapByKeys code) := by
    intro code
    unfold GobstonesTranslator.fromTokens
    rw [ht]
    simp only [hreg]
    unfold GobstonesTranslator.fullMap
    rw [if_neg (by simp)]
    simp [Bind.bind, Except.bind, Pure.pure, Except.pure]
  have henc : translateWithMap (BidirectionalMap.ofPairs l).getMapByValues
        (renderSpans items)
      = renderSpans (items.map
          (translateSpan (BidirectionalMap.ofPairs l).getMapByValues)) :=
    translateWithMap_renderSpans _ items hwf
  have hwfenc : wfSpans (items.map
      (translateSpan (BidirectionalMap.ofPairs l).getMapByValues)) = true := by
    unfold wfSpans
    have hall : (items.map
        (translateSpan (BidirectionalMap.ofPairs l).getMapByValues)).all spanOK = true := by
      rw [List.all_eq_true]
      intro sp hsp
      rcases List.mem_map.mp hsp with ⟨sp₀, hsp₀, heq⟩
      subst heq
      cases sp₀ with
      | sep c =>
        have hok : spanOK (Span.sep c) = true := by
          have hallOK := (by simpa [wfSpans] using hwf :
            items.all spanOK = true ∧ noTwoWords items = true).1
          exact List.all_eq_true.mp hallOK _ hsp₀
        simpa [translateSpan] using hok
      | word w =>
        rcases hwords w hsp₀ with ⟨k, hk, hkne, hkall⟩
        have hval : jsGet (BidirectionalMap.ofPairs l).reverseMap w = some k := hk
        simp only [translateSpan, BidirectionalMap.getMapByValues, hval, Option.getD_some,
          spanOK, Bool.and_eq_true]
        constructor
        · cases k with
          | nil => exact absurd rfl hkne
          | cons a b => rfl
        · exact hkall
    rw [hall, noTwoWords_map]
    have hnt := (by simpa [wfSpans] using hwf :
      items.all spanOK = true ∧ noTwoWords items = true).2
    rw [hnt]
    rfl
  have hdec : translateWithMap (BidirectionalMap.ofPairs l).getMapByKeys
        (renderSpans (items.map
          (translateSpan (BidirectionalMap.ofPairs l).getMapByValues)))
      = renderSpans ((items.map
          (translateSpan (BidirectionalMap.ofPairs l).getMapByValues)).map
            (translateSpan (BidirectionalMap.ofPairs l).getMapByKeys)) :=
    translateWithMap_renderSpans _ _ hwfenc
  have hid : (items.map
        (translateSpan (BidirectionalMap.ofPairs l).getMapByValues)).map
          (translateSpan (BidirectionalMap.ofPairs l).getMapByKeys) = items := by
    rw [List.map_map]
    have hpt : ∀ sp ∈ items,
        (translateSpan (BidirectionalMap.ofPairs l).getMapByKeys ∘
          translateSpan (BidirectionalMap.ofPairs l).getMapByValues) sp = id sp := by
      intro sp hsp
      cases sp with
      | sep c => rfl
      | word w =>
        rcases hwords w hsp with ⟨k, hk, hkne, hkall⟩
        have hval : jsGet (BidirectionalMap.ofPairs l).reverseMap w = some k := hk
        have hback : (BidirectionalMap.ofPairs l).getByKey k = some w :=
          getByKey_getByValue_of_nodup hnd hk
        have hback' : jsGet (BidirectionalMap.ofPairs l).map k = some w := hback
        simp [translateSpan, Function.comp, BidirectionalMap.getMapByValues,
          BidirectionalMap.getMapByKeys, hval, hback']
    rw [List.map_congr_left hpt, List.map_id]
  rw [htok]
  show tr.fromTokens (translateWithMap (BidirectionalMap.ofPairs l).getMapByValues
    (renderSpans items)) false = .ok (renderSpans items)
  rw [henc, hfromtok, hdec, hid]

/-- Witness for the amended C3 at a concrete translator and text. -/
theorem roundtrip_identity_amended_witness :
    (sampleTranslator.toTokens
        (renderSpans [Span.word (str "Hello"), Span.sep ' ', Span.word (str "Hello")])
        false).bind (fun s => sampleTranslator.fromTokens s false)
      = .ok (renderSpans
          [Span.word (str "Hello"), Span.sep ' ', Span.word (str "Hello")]) := by
  apply roundtrip_identity_amended sampleTranslator (str "aa") [(str "$T$", str "Hello")]
    [Span.word (str "Hello"), Span.sep ' ', Span.word (str "Hello")] rfl rfl rfl
    (by decide) (by decide)
  intro w hmem
  simp only [List.mem_cons, List.not_mem_nil, or_false] at hmem
  rcases hmem with h | h | h
  · injection h with hw
    subst hw
    exact ⟨str "$T$", by decide, by decide, by decide⟩
  · exact Span.noConfusion h
  · injection h with hw
    subst hw
    exact ⟨str "$T$", by decide, by decide, by decide⟩

set_option maxRecDepth 10000 in
/-- C3 counterexample: a user-registered locale whose bare token name
x-y contains the separator character between x and y: the word Hello is
a spelling known to that locale, yet decoding the encoding on a
translator with that locale as both source and destination yields the
decorated token text, not the original word, because the emitted token
splits into several spans on the way back. -/
theorem roundtrip_identity_counterexample :
    (mkGobstonesTranslator
        { fromLoc := some (str "w"), toLoc := some (str "w"),
          locales := some [(str "w",
            { ext := none, entries := [(str "x-y", str "Hello")] })] }).map
      (fun tr => (tr.toTokens (str "Hello") false).bind (fun s => tr.fromTokens s false))
    = .ok (.ok (str "$x-y$"))
    ∧ str "$x-y$" ≠ str "Hello" := by
  constructor
  · decide
  · decide

set_option maxRecDepth 10000 in
/-- C7 counterexample: the user-supplied locales hold the name en, which
collides with a built-in locale, yet construction raises
NonExistentLocaleGiven, not LocaleNameCollision, because the definition
extends an unregistered name and that check runs first. -/
theorem duplicate_locale_error_counterexample :
    mkGobstonesTranslator
        { locales := some [(str "en", { ext := some (str "zz"), entries := [] })] }
      = .error (.nonExistentLocaleGiven (str "zz") (str "extends"))
    ∧ ThrownError.nonExistentLocaleGiven (str "zz") (str "extends")
        ≠ ThrownError.localeNameCollision (str "en") := by
  constructor
  · decide
  · decide

/-- C7 amended: construction whose user-supplied locales hold, at any
position, a definition whose name is already registered when that
definition is processed (a built-in name, or the name of an earlier
user-supplied entry, the earlier entries having registered) aborts the
whole construction with an error and produces no translator; the error
is LocaleNameCollision provided the extends target of that definition,
when declared, resolves in the registry at that point (otherwise
NonExistentLocaleGiven is raised first, as the counterexample shows). -/
theorem duplicate_locale_collision_amended (options : GobstonesTranslatorOptions)
    (processed : List (Str × LocaleDefinition)) (n : Str) (d : LocaleDefinition)
    (rest : List (Str × LocaleDefinition))
    (hloc : options.locales = some (processed ++ (n, d) :: rest))
    (hn : registryAfterHas options processed n = true)
    (hext : d.ext = none ∨ ∃ e, d.ext = some e ∧ registryAfterHas options processed e = true) :
    mkGobstonesTranslator options = .error (.localeNameCollision n) := by
  obtain ⟨r₀, hr₀⟩ : ∃ r₀, builtinRegistry options = .ok r₀ := by
    unfold registryAfterHas registryAfter at hn
    cases hb : builtinRegistry options with
    | ok r =>
      exact ⟨r, rfl⟩
    | error e =>
      rw [hb] at hn
      simp [Bind.bind, Except.bind] at hn
  obtain ⟨r₁, hr₁, hhas⟩ : ∃ r₁,
      registerAllLocales (options.tokenPre.getD (str "$")) (options.tokenSuf.getD (str "$"))
        r₀ processed = .ok r₁ ∧ jsHas r₁ n = true := by
    unfold registryAfterHas registryAfter at hn
    rw [hr₀] at hn
    simp only [Bind.bind, Except.bind] at hn
    cases hp : registerAllLocales (options.tokenPre.getD (str "$"))
        (options.tokenSuf.getD (str "$")) r₀ processed with
    | ok r =>
      rw [hp] at hn
      exact ⟨r, rfl, hn⟩
    | error e =>
      rw [hp] at hn
      simp at hn
  unfold jsHas at hhas
  have hextbase : d.ext = none ∨ ∃ e base, d.ext = some e ∧ jsGet r₁ e = some base := by
    rcases hext with h | ⟨e, he, hbe⟩
    · exact Or.inl h
    · right
      unfold registryAfterHas registryAfter at hbe
      rw [hr₀] at hbe
      simp only [Bind.bind, Except.bind] at hbe
      rw [hr₁] at hbe
      unfold jsHas at hbe
      obtain ⟨base, hbase⟩ := Option.isSome_iff_exists.mp hbe
      exact ⟨e, base, he, hbase⟩
  have hfail : registerLocale (options.tokenPre.getD (str "$"))
      (options.tokenSuf.getD (str "$")) r₁ n d = .error (.localeNameCollision n) := by
    unfold registerLocale
    rcases hextbase with hnone | ⟨e, base, he, hbase⟩
    · simp only [hnone]
      rw [if_pos hhas]
    · simp only [he, hbase]
      rw [if_pos hhas]
  have hr₀' : registerAllLocales (options.tokenPre.getD (str "$"))
      (options.tokenSuf.getD (str "$")) [] availableLocales = .ok r₀ := hr₀
  have hr₁' : List.foldlM (fun r p => registerLocale (options.tokenPre.getD (str "$"))
      (options.tokenSuf.getD (str "$")) r p.1 p.2) r₀ processed = .ok r₁ := hr₁
  unfold mkGobstonesTranslator
  simp only [hr₀', hloc, Option.getD_some, Bind.bind, Except.bind]
  unfold registerAllLocales
  rw [List.foldlM_append, hr₁']
  simp only [Bind.bind, Except.bind, List.foldlM_cons]
  rw [hfail]

set_option maxRecDepth 10000 in
/-- Witness for the amended C7 at a concrete construction whose colliding
entry sits behind an earlier user-supplied definition: xx registers
first, then en collides with the built-in locale of that name. -/
theorem duplicate_locale_collision_amended_witness :
    mkGobstonesTranslator
        { locales := some [(str "xx", { ext := some (str "en"), entries := [] }),
            (str "en", { ext := none, entries := [] })] }
      = .error (.localeNameCollision (str "en")) :=
  duplicate_locale_collision_amended
    { locales := some [(str "xx", { ext := some (str "en"), entries := [] }),
        (str "en", { ext := none, entries := [] })] }
    [(str "xx", { ext := some (str "en"), entries := [] })]
    (str "en") { ext := none, entries := [] } [] rfl (by decide) (Or.inl rfl)

set_option maxRecDepth 10000 in
/-- C1 counterexample: with name overrides hola to chau configured on an
es translator, translate with useNames true answers chau, while encode
then decode both under useNames true answers hola: the reverse names view
maps the overridden word straight back, so the flag is not the same on
both halves. -/
theorem translate_compose_same_flag_counterexample :
    (mkGobstonesTranslator
        { fromLoc := some (str "es"), toLoc := some (str "es"),
          names := some [(str "hola", str "chau")] }).map
      (fun tr => (tr.translate (str "hola") true,
        (tr.toTokens (str "hola") true).bind (fun s => tr.fromTokens s true)))
    = .ok (.ok (str "chau"), .ok (str "hola"))
    ∧ str "chau" ≠ str "hola" := by
  constructor
  · decide
  · decide

end GobsLangIntl
